import Mathlib

/-!
# Verification of the AnimalMaker particle transformation engine

Shallow embedding of `src/animation_system.py` (classes `Particle` and
`AnimationManager`) and of the progressive-reveal loop of
`src/animal_maker.py` (`AnimalMakerApp.draw`), together with proofs of the
frozen specification claims.

Modelling conventions:
* Python floats are modelled as exact rationals (`ℚ`); float literals such
  as `0.35`, `0.95`, `1e-6` become the corresponding rationals.
* Python `int(x)` truncates toward zero; it is modelled by `pyInt`.
* Transcendental library calls (`math.sin`, `math.cos`, `math.pi`,
  `x ** 1.5`, `math.hypot`/square root) and the `random` module have no
  exact rational counterpart; they are abstracted into an environment
  `Env` of unconstrained value streams, exactly as the code consumes them.
  No claim below depends on the actual values of these streams.
-/

/-- Python `int(x)`: truncation toward zero (floor for non-negative
values, ceiling for negative ones). -/
def pyInt (q : ℚ) : ℤ := if 0 ≤ q then ⌊q⌋ else ⌈q⌉

/-- Environment abstracting the transcendental functions and the random
streams consumed by `animation_system.py`.  Indexed streams model the
successive calls to `random.uniform` / `random.random` / `random.randint`
/ `random.choice` made while constructing particles. -/
structure Env where
  sin : ℚ → ℚ
  cos : ℚ → ℚ
  sqrt : ℚ → ℚ
  pi : ℚ
  /-- Source: `x ** 1.5` on a rational base. -/
  pow15 : ℚ → ℚ
  /-- Source: `random.uniform(0, math.pi * 2)` in `Particle.__init__`. -/
  angle : ℕ → ℚ
  /-- Source: `random.uniform(40.0, 80.0)` in `Particle.__init__`. -/
  speed : ℕ → ℚ
  /-- Source: `random.uniform(0.5, 1.5)` in `Particle.__init__`. -/
  wobbleF : ℕ → ℚ
  /-- Source: `random.uniform(2, 8)` in `Particle.__init__`. -/
  wobbleA : ℕ → ℚ
  /-- Source: `random.uniform(0.0, 0.4)` in `Particle.__init__`. -/
  fallDelay : ℕ → ℚ
  /-- Source: `random.uniform(-2, 2)` jitter in `create_particles`. -/
  jitterX : ℕ → ℚ
  /-- Source: `random.uniform(-2, 2)` jitter in `create_particles`. -/
  jitterY : ℕ → ℚ
  /-- Source: `random.random()` size roll in `create_particles`. -/
  sizeRoll : ℕ → ℚ
  /-- Source: `random.randint(3, 5)` in `create_particles`. -/
  sizeBig : ℕ → ℕ
  /-- index chosen by `random.choice(all_pixels)` in
  `extract_pixels_for_shape` (taken modulo the list length). -/
  choice : ℕ → ℕ

/-- RGB colour triple (Python tuples of ints). -/
abbrev Color := ℤ × ℤ × ℤ

/-- World-coordinate integer pixel position. -/
abbrev Pos := ℤ × ℤ

/-- A `(position, color)` sample extracted from a bitmap. -/
abbrev Sample := Pos × Color

/-- Embedding of class `Particle` (`animation_system.py`, lines 18-51).
All float fields are exact rationals. -/
structure Particle where
  start_x : ℚ
  start_y : ℚ
  target_x : ℚ
  target_y : ℚ
  current_x : ℚ
  current_y : ℚ
  source_color : Color
  target_color : Color
  color : Color
  size : ℕ
  velocity_x : ℚ
  velocity_y : ℚ
  gravity : ℚ
  friction : ℚ
  life : ℚ
  age : ℚ
  wobble_frequency : ℚ
  wobble_amplitude : ℚ
  fall_delay : ℚ
  deriving DecidableEq, Repr

/-- Source: `Particle.__init__`: positions from the (jittered) start and the
target, colours copied, scatter velocity and wobble/delay drawn from the
random streams at index `idx`. -/
def mkParticle (env : Env) (idx : ℕ) (start : ℚ × ℚ) (target : Pos)
    (source_color target_color : Color) (size : ℕ) : Particle :=
  { start_x := start.1
    start_y := start.2
    target_x := (target.1 : ℚ)
    target_y := (target.2 : ℚ)
    current_x := start.1
    current_y := start.2
    source_color := source_color
    target_color := target_color
    color := source_color
    size := size
    velocity_x := env.cos (env.angle idx) * env.speed idx
    velocity_y := env.sin (env.angle idx) * env.speed idx * (4/10)
    gravity := 150
    friction := 95/100
    life := 1
    age := 0
    wobble_frequency := env.wobbleF idx
    wobble_amplitude := env.wobbleA idx
    fall_delay := env.fallDelay idx }

/-- Linear RGB blend `int(source*(1-t) + target*t)` per channel, as
written three times in the source. -/
def blendColor (s t : Color) (bf : ℚ) : Color :=
  (pyInt ((s.1 : ℚ) * (1 - bf) + (t.1 : ℚ) * bf),
   pyInt ((s.2.1 : ℚ) * (1 - bf) + (t.2.1 : ℚ) * bf),
   pyInt ((s.2.2 : ℚ) * (1 - bf) + (t.2.2 : ℚ) * bf))

/-- Source: `Particle.update_sand_fall` (lines 53-101). -/
def Particle.update_sand_fall (env : Env) (p : Particle) (progress dt : ℚ) :
    Particle :=
  if progress < p.fall_delay then
    -- still scattering, apply gravity and friction
    let vy := p.velocity_y + p.gravity * dt
    let vx0 := p.velocity_x * p.friction
    -- wobble adds organic motion
    let wobble := env.sin (p.age * p.wobble_frequency) * p.wobble_amplitude
    let vx := vx0 + wobble * dt
    { p with
      velocity_x := vx
      velocity_y := vy
      current_x := p.current_x + vx * dt
      current_y := p.current_y + vy * dt
      age := p.age + dt }
  else
    -- adjusted progress for this particle (0..1)
    let adjusted := (progress - p.fall_delay) / max (1/1000000) (1 - p.fall_delay)
    let vy := p.velocity_y + (p.gravity * (35/100)) * dt
    let vx := p.velocity_x * max (6/10) p.friction
    let cx0 := p.current_x + vx * dt
    let cy0 := p.current_y + vy * dt
    -- target attraction grows smoothly
    let attraction := min 4 (env.pow15 adjusted * 3)
    let cx := cx0 * (1 - attraction * dt) + p.target_x * (attraction * dt)
    let cy := cy0 * (1 - attraction * dt) + p.target_y * (attraction * dt)
    let t := min 1 (max 0 adjusted)
    { p with
      velocity_x := vx
      velocity_y := vy
      current_x := cx
      current_y := cy
      color := blendColor p.source_color p.target_color t
      age := p.age + dt }

/-- Source: `Particle.update_particle_swirl` (lines 103-118). -/
def Particle.update_particle_swirl (env : Env) (p : Particle)
    (progress dt : ℚ) (center : ℚ × ℚ) : Particle :=
  let angle := p.age * 2 + progress * env.pi * 4
  let radius := 50 * (1 - progress)
  let spiral_x := center.1 + env.cos angle * radius
  let spiral_y := center.2 + env.sin angle * radius
  { p with
    current_x := spiral_x * (1 - progress) + p.target_x * progress
    current_y := spiral_y * (1 - progress) + p.target_y * progress
    age := p.age + dt }

/-- Ease-out factor `1 - (1 - progress)**2` of `update_pixel_morph`. -/
def easeOutQ (progress : ℚ) : ℚ := 1 - (1 - progress) * (1 - progress)

/-- Source: `Particle.update_pixel_morph` (lines 120-128). -/
def Particle.update_pixel_morph (p : Particle) (progress dt : ℚ) : Particle :=
  let eased := easeOutQ progress
  { p with
    current_x := p.start_x * (1 - eased) + p.target_x * eased
    current_y := p.start_y * (1 - eased) + p.target_y * eased
    age := p.age + dt }

/-- Smooth-step factor `progress**2 * (3 - 2*progress)` of
`update_wave_transform`. -/
def smoothStepQ (progress : ℚ) : ℚ := progress * progress * (3 - 2 * progress)

/-- Wave offset `sin(progress*2*pi + start_x*0.1) * 20 * (1 - progress)`
of `update_wave_transform`. -/
def waveOffset (env : Env) (start_x progress : ℚ) : ℚ :=
  env.sin (progress * env.pi * 2 + start_x * (1/10)) * 20 * (1 - progress)

/-- Source: `Particle.update_wave_transform` (lines 130-140). -/
def Particle.update_wave_transform (env : Env) (p : Particle)
    (progress dt : ℚ) : Particle :=
  let wave := waveOffset env p.start_x progress
  let eased := smoothStepQ progress
  { p with
    current_x := p.start_x * (1 - eased) + p.target_x * eased
    current_y := p.start_y * (1 - eased) + p.target_y * eased + wave
    age := p.age + dt }

/-- The four-member animation-type enumeration. -/
inductive AnimationType where
  | SAND_FALL
  | PARTICLE_SWIRL
  | PIXEL_MORPH
  | WAVE_TRANSFORM
  deriving DecidableEq, Repr

/-- Embedding of the `AnimationManager` state (lines 164-173). -/
structure AnimationManager where
  particles : List Particle
  animation_type : AnimationType
  progress : ℚ
  duration : ℚ
  is_animating : Bool
  center_point : ℚ × ℚ
  deriving DecidableEq, Repr

/-- The type dispatch of `AnimationManager.update` (lines 340-348): the
type-specific kinematic update applied to one particle. -/
def typeUpdate (env : Env) (ty : AnimationType) (center : ℚ × ℚ)
    (prog dt : ℚ) (p : Particle) : Particle :=
  match ty with
  | AnimationType.SAND_FALL => p.update_sand_fall env prog dt
  | AnimationType.PARTICLE_SWIRL => p.update_particle_swirl env prog dt center
  | AnimationType.PIXEL_MORPH => p.update_pixel_morph prog dt
  | AnimationType.WAVE_TRANSFORM => p.update_wave_transform env prog dt

/-- The global colour-blend stage of `AnimationManager.update` (lines
350-359): the colour is overwritten only when the blend factor is
positive. -/
def colorBlendStage (prog : ℚ) (p1 : Particle) : Particle :=
  let blend_factor :=
    min 1 (max 0 ((prog - p1.fall_delay) / max (1/1000000) (1 - p1.fall_delay)))
  if 0 < blend_factor then
    let bf := max 0 (min 1 blend_factor)
    { p1 with color := blendColor p1.source_color p1.target_color bf }
  else p1

/-- One frame step of a single particle inside `AnimationManager.update`
(lines 339-359): type-specific kinematic update followed by the global
colour blend. -/
def stepParticle (env : Env) (ty : AnimationType) (center : ℚ × ℚ)
    (prog dt : ℚ) (p : Particle) : Particle :=
  colorBlendStage prog (typeUpdate env ty center prog dt p)

/-- Source: `AnimationManager.update(dt)` (lines 328-359). -/
def mupdate (env : Env) (m : AnimationManager) (dt : ℚ) : AnimationManager :=
  if m.is_animating then
    let prog0 := m.progress + dt / m.duration
    let prog := if 1 ≤ prog0 then 1 else prog0
    let anim := if 1 ≤ prog0 then false else true
    { m with
      progress := prog
      is_animating := anim
      particles :=
        m.particles.map (stepParticle env m.animation_type m.center_point prog dt) }
  else m

/-- Source: `AnimationManager.is_finished` (lines 366-368). -/
def AnimationManager.is_finished (m : AnimationManager) : Bool :=
  !m.is_animating

/-- Folding a whole sequence of `update(dt)` calls. -/
def updates (env : Env) (m : AnimationManager) (dts : List ℚ) :
    AnimationManager :=
  dts.foldl (mupdate env) m

/-- Python slice `l[::step]` for `step ≥ 1`: every `step`-th element. -/
def sliceStep {α : Type} (l : List α) (step : ℕ) : List α :=
  (l.enum.filter (fun it => it.1 % step = 0)).map (fun it => it.2)

/-- The padding loop
`while len(pixels) < num_pixels and all_pixels: pixels.append(random.choice(all_pixels))`
of `extract_pixels_for_shape`; `random.choice` is modelled by the
environment index stream taken modulo the candidate count. -/
def padPixels (env : Env) (allPixels : List Sample) (numPixels : ℕ)
    (pixels : List Sample) : List Sample :=
  match allPixels with
  | [] => pixels
  | a :: rest =>
      pixels ++ (List.range (numPixels - pixels.length)).map
        (fun i => (a :: rest).getD (env.choice i % (a :: rest).length) a)

/-- Source: `AnimationManager.extract_pixels_for_shape` (lines 224-257), starting
from the candidate list `all_pixels` the pixel scan produced.  Returns
`none` when the Python code raises: with `num_pixels = 0` and a non-empty
candidate list, `step = len(all_pixels) // num_pixels` divides by zero. -/
def extract_pixels_for_shape (env : Env) (allPixels : List Sample)
    (numPixels : ℕ) : Option (List Sample) :=
  if allPixels.length > numPixels then
    if numPixels = 0 then
      none  -- ZeroDivisionError: `len(all_pixels) // num_pixels`
    else
      let step := allPixels.length / numPixels
      some ((sliceStep allPixels step).take numPixels)
  else
    some (padPixels env allPixels numPixels allPixels)

/-- One pass of the equalization loop body
`source_pixels.extend(source_pixels[:len(target) - len(source_pixels)])`,
iterated under fuel.  The Python `while` loop is only ever entered with a
non-empty source (guarded in `create_particles`), where each pass grows
the list by at least one element, so `tlen` passes always suffice. -/
def extendSource {α : Type} : ℕ → List α → ℕ → List α
  | 0, l, _ => l
  | fuel + 1, l, tlen =>
      if l.length < tlen then
        extendSource fuel (l ++ l.take (tlen - l.length)) tlen
      else l

/-- The length-equalization step of `create_particles` (lines 274-279):
truncate the source when it is longer than the target, otherwise repeat
source entries until the lengths match. -/
def equalizeSource {α : Type} (src : List α) (tlen : ℕ) : List α :=
  if src.length > tlen then src.take tlen else extendSource tlen src tlen

/-- Sort key comparison `(p[0][1], p[0][0])` (y, then x) used by
`sorted(target_pixels, key=...)`. -/
def targetLe (p q : Sample) : Prop :=
  p.1.2 < q.1.2 ∨ (p.1.2 = q.1.2 ∧ p.1.1 ≤ q.1.1)

instance : DecidableRel targetLe := fun p q => by
  unfold targetLe; infer_instance

/-- Source: `sorted(target_pixels, key=lambda p: (p[0][1], p[0][0]))`; Python's
`sorted` is a stable comparison sort, modelled by insertion sort on the
same key. -/
def sortTargets (l : List Sample) : List Sample :=
  List.insertionSort targetLe l

/-- Squared Euclidean distance between two integer positions, as computed
in the assignment loop (`dx*dx + dy*dy`). -/
def dist2 (a b : Pos) : ℤ :=
  (a.1 - b.1) * (a.1 - b.1) + (a.2 - b.2) * (a.2 - b.2)

/-- Inner scan of `create_particles` (lines 286-301), enumerating the
sorted target list with a running index: skip used indices, keep the
strictly closer candidate (first minimum wins ties).  The accumulator
holds the best `(index, sample, distance)` so far; `none` plays the role
of `best_distance = float('inf')`, and any actual squared distance beats
it. -/
def findBestAux (spos : Pos) (used : List ℕ) :
    List Sample → ℕ → Option (ℕ × Sample × ℤ) → Option (ℕ × Sample × ℤ)
  | [], _, acc => acc
  | t :: rest, i, acc =>
      if i ∈ used then findBestAux spos used rest (i + 1) acc
      else
        let d := dist2 spos t.1
        match acc with
        | none => findBestAux spos used rest (i + 1) (some (i, t, d))
        | some (j, u, bd) =>
            if d < bd then findBestAux spos used rest (i + 1) (some (i, t, d))
            else findBestAux spos used rest (i + 1) (some (j, u, bd))

/-- Index and sample of the closest unused target pixel for a given
source position (`best_target` of the inner scan), if any. -/
def findBest (spos : Pos) (targets : List Sample) (used : List ℕ) :
    Option (ℕ × Sample) :=
  (findBestAux spos used targets 0 none).map (fun r => (r.1, r.2.1))

/-- First unused target with its index, the fallback scan of lines
308-313. -/
def firstUnusedAux (used : List ℕ) :
    List Sample → ℕ → Option (ℕ × Sample)
  | [], _ => none
  | t :: rest, i =>
      if i ∈ used then firstUnusedAux used rest (i + 1) else some (i, t)

/-- The assignment loop of `create_particles` (lines 281-313) over the
equalized source list; produces `(target index, source sample, target
sample)` triples.  The recorded index corresponds to membership in the
Python `used_targets` set; when neither scan finds an unused target, the
Python loop appends nothing for that source sample. -/
def assignLoop (targets : List Sample) :
    List Sample → List ℕ → List (ℕ × Sample × Sample)
  | [], _ => []
  | s :: rest, used =>
      match findBest s.1 targets used with
      | some (i, t) => (i, s, t) :: assignLoop targets rest (i :: used)
      | none =>
          -- fallback: use any available target
          match firstUnusedAux used targets 0 with
          | some (i, t) => (i, s, t) :: assignLoop targets rest (i :: used)
          | none => assignLoop targets rest used

/-- Particle construction from one assignment (lines 316-326): jittered
start position, random size class. -/
def particleOfAssignment (env : Env) (idx : ℕ) (a : ℕ × Sample × Sample) :
    Particle :=
  let source_pos := a.2.1.1
  let source_color := a.2.1.2
  let target_pos := a.2.2.1
  let target_color := a.2.2.2
  let start := ((source_pos.1 : ℚ) + env.jitterX idx,
                (source_pos.2 : ℚ) + env.jitterY idx)
  let size := if env.sizeRoll idx < 8/10 then 2 else env.sizeBig idx
  mkParticle env idx start target_pos source_color target_color size

/-- Source: `AnimationManager.create_particles` (lines 259-326). -/
def create_particles (env : Env) (source_pixels target_pixels : List Sample) :
    List Particle :=
  if source_pixels = [] ∨ target_pixels = [] then []
  else
    let tsorted := sortTargets target_pixels
    let eq_src := equalizeSource source_pixels tsorted.length
    let asg := assignLoop tsorted eq_src []
    asg.enum.map (fun ia => particleOfAssignment env ia.1 ia.2)

/-- The particle list built by `start_animation` (lines 175-201) from the
already-scanned source samples and target candidate pixels: target
sampling followed by `create_particles`.  `none` models the
`ZeroDivisionError` escaping from `extract_pixels_for_shape`. -/
def start_animation_particles (env : Env) (source_pixels : List Sample)
    (target_all_pixels : List Sample) : Option (List Particle) :=
  match extract_pixels_for_shape env target_all_pixels source_pixels.length with
  | none => none
  | some target_pixels => some (create_particles env source_pixels target_pixels)

/-- The drawing effect a particle produces on the frame surface.
`setPixel` is the `size <= 2` fast path (`surface.set_at`, no alpha);
`circle` is the alpha-blended circle blit of the larger path, recorded
with its centre, colour, alpha and radius. -/
inductive DrawCmd where
  | setPixel : Pos → Color → DrawCmd
  | circle : Pos → Color → ℤ → ℕ → DrawCmd
  deriving DecidableEq, Repr

/-- Squared distance from a particle's current position to its target, the
argument of `math.hypot` in `Particle.draw` and of the reveal loop's
`** 0.5`. -/
def Particle.dist2ToTarget (p : Particle) : ℚ :=
  (p.target_x - p.current_x) * (p.target_x - p.current_x) +
    (p.target_y - p.current_y) * (p.target_y - p.current_y)

/-- The integer draw position `(int(self.current_x), int(self.current_y))`
of `Particle.draw`. -/
def Particle.intPos (p : Particle) : Pos := (pyInt p.current_x, pyInt p.current_y)

/-- The bounds check `0 <= x < width and 0 <= y < height`. -/
def inFrame (pos : Pos) (w h : ℤ) : Prop :=
  0 ≤ pos.1 ∧ pos.1 < w ∧ 0 ≤ pos.2 ∧ pos.2 < h

instance (pos : Pos) (w h : ℤ) : Decidable (inFrame pos w h) := by
  unfold inFrame; infer_instance

/-- The clamped opacity `int(max(40, min(255, 255 - dist * 0.8)))` of
`Particle.draw`; `dist` is the square root of the squared distance,
supplied by the environment. -/
def drawAlpha (env : Env) (p : Particle) : ℤ :=
  pyInt (max 40 (min 255 (255 - env.sqrt p.dist2ToTarget * (8/10))))

/-- Source: `Particle.draw` (lines 142-162): skip silently when the truncated
position is out of frame; otherwise a single opaque pixel for small sizes
or an alpha-blended circle for larger ones. -/
def Particle.drawCmd (env : Env) (p : Particle) (w h : ℤ) : Option DrawCmd :=
  let pos := p.intPos
  if inFrame pos w h then
    if p.size ≤ 2 then some (DrawCmd.setPixel pos p.color)
    else some (DrawCmd.circle pos p.color (drawAlpha env p) p.size)
  else none

/-- Source: `max_reveal_distance = 50 * (1 - reveal_progress)` of
`AnimalMakerApp.draw`. -/
def maxRevealDistance (rp : ℚ) : ℚ := 50 * (1 - rp)

/-- Source: `reveal_radius = max(1, int(2 + 3 * reveal_progress))`. -/
def revealRadius (rp : ℚ) : ℤ := max 1 (pyInt (2 + 3 * rp))

/-- Alpha of revealed pixels, `min(255, int(255 * reveal_progress))`. -/
def revealAlpha (rp : ℚ) : ℤ := min 255 (pyInt (255 * rp))

/-- The qualification test `distance_to_target < max_reveal_distance`.
The source compares `(dx*dx + dy*dy) ** 0.5` against the threshold; over
exact arithmetic `sqrt d2 < m` holds iff `m` is non-negative and
`d2 < m^2`, which is how the strict comparison is embedded here. -/
def qualifies (p : Particle) (rp : ℚ) : Prop :=
  0 ≤ maxRevealDistance rp ∧
    p.dist2ToTarget < maxRevealDistance rp * maxRevealDistance rp

instance (p : Particle) (rp : ℚ) : Decidable (qualifies p rp) := by
  unfold qualifies; infer_instance

/-- The particle position relative to the target image rectangle,
`(int(current_x - rect.x), int(current_y - rect.y))`. -/
def relPos (p : Particle) (rect : Pos) : Pos :=
  (pyInt (p.current_x - (rect.1 : ℚ)), pyInt (p.current_y - (rect.2 : ℚ)))

/-- Pixels revealed by a single particle (the `for dy ... for dx ...`
double loop of `AnimalMakerApp.draw`): offsets within the square
`[-r, r] × [-r, r]`, kept when inside the image bounds and inside the
circular mask `dx*dx + dy*dy <= r*r`. -/
def particleReveal (p : Particle) (rp : ℚ) (rect : Pos) (imgW imgH : ℤ) :
    Finset Pos :=
  if qualifies p rp then
    let c := relPos p rect
    let r := revealRadius rp
    ((Finset.Icc (-r) r ×ˢ Finset.Icc (-r) r).filter
      (fun d =>
        0 ≤ c.1 + d.2 ∧ c.1 + d.2 < imgW ∧ 0 ≤ c.2 + d.1 ∧ c.2 + d.1 < imgH ∧
          d.2 * d.2 + d.1 * d.1 ≤ r * r)).image (fun d => (c.1 + d.2, c.2 + d.1))
  else ∅

/-- The full `revealed_pixels` set accumulated over all particles. -/
def revealedPixels (particles : List Particle) (rp : ℚ) (rect : Pos)
    (imgW imgH : ℤ) : Finset Pos :=
  particles.foldl (fun acc p => acc ∪ particleReveal p rp rect imgW imgH) ∅

/-- Creation-time particle fields: everything except `currentPosition`,
`currentColor`, velocity and age. -/
def fixedFields (p : Particle) :
    ℚ × ℚ × ℚ × ℚ × Color × Color × ℕ × ℚ × ℚ × ℚ × ℚ × ℚ × ℚ :=
  (p.start_x, p.start_y, p.target_x, p.target_y, p.source_color,
   p.target_color, (p.size : ℕ), p.fall_delay, p.wobble_frequency,
   p.wobble_amplitude, p.gravity, p.friction, p.life)

/-- A concrete environment used to instantiate witnesses; the claims hold
for every environment, so any instantiation will do. -/
def envZero : Env :=
  { sin := fun _ => 0
    cos := fun _ => 0
    sqrt := fun _ => 0
    pi := 0
    pow15 := fun _ => 0
    angle := fun _ => 0
    speed := fun _ => 0
    wobbleF := fun _ => 0
    wobbleA := fun _ => 0
    fallDelay := fun _ => 0
    jitterX := fun _ => 0
    jitterY := fun _ => 0
    sizeRoll := fun _ => 0
    sizeBig := fun _ => 3
    choice := fun _ => 0 }

/-- A concrete particle resting on its target, used in witnesses. -/
def pBase : Particle :=
  { start_x := 0
    start_y := 0
    target_x := 3
    target_y := 4
    current_x := 3
    current_y := 4
    source_color := (10, 20, 30)
    target_color := (200, 100, 50)
    color := (10, 20, 30)
    size := 2
    velocity_x := 0
    velocity_y := 0
    gravity := 150
    friction := 95/100
    life := 1
    age := 0
    wobble_frequency := 1
    wobble_amplitude := 2
    fall_delay := 0 }

/-- A concrete particle whose current x-coordinate lies in `(-1, 0)`:
its floor position is out of frame while its truncated position is not. -/
def pNeg : Particle :=
  { pBase with current_x := -1/2, current_y := 0 }

/-- A concrete post-`start` manager state with one particle. -/
def mgr0 : AnimationManager :=
  { particles := [pBase]
    animation_type := AnimationType.PIXEL_MORPH
    progress := 0
    duration := 2
    is_animating := true
    center_point := (0, 0) }

/-- Manager invariant maintained by every post-`start` state: progress
stays in `[0, 1]` and the animating flag is false exactly when progress
has clamped at 1. -/
def ManagerInv (m : AnimationManager) : Prop :=
  0 ≤ m.progress ∧ m.progress ≤ 1 ∧ (m.is_animating = false ↔ m.progress = 1)

/-! ## Helper lemmas -/

lemma pyInt_intCast (n : ℤ) : pyInt (n : ℚ) = n := by
  unfold pyInt; split <;> simp

lemma pyInt_of_nonneg {q : ℚ} (h : 0 ≤ q) : pyInt q = ⌊q⌋ := by
  simp [pyInt, h]

lemma blendColor_zero (s t : Color) : blendColor s t 0 = s := by
  obtain ⟨s1, s2, s3⟩ := s
  simp [blendColor, pyInt_intCast]

lemma blendColor_one (s t : Color) : blendColor s t 1 = t := by
  obtain ⟨t1, t2, t3⟩ := t
  simp [blendColor, pyInt_intCast]

lemma fixedFields_update_sand_fall (env : Env) (p : Particle)
    (progress dt : ℚ) :
    fixedFields (p.update_sand_fall env progress dt) = fixedFields p := by
  unfold Particle.update_sand_fall
  split <;> rfl

lemma fixedFields_setColor (q : Particle) (c : Color) :
    fixedFields { q with color := c } = fixedFields q := rfl

lemma fixedFields_typeUpdate (env : Env) (ty : AnimationType)
    (center : ℚ × ℚ) (prog dt : ℚ) (p : Particle) :
    fixedFields (typeUpdate env ty center prog dt p) = fixedFields p := by
  cases ty <;>
    first
      | exact fixedFields_update_sand_fall env p prog dt
      | rfl

lemma fixedFields_colorBlendStage (prog : ℚ) (p1 : Particle) :
    fixedFields (colorBlendStage prog p1) = fixedFields p1 := by
  unfold colorBlendStage
  dsimp only
  split
  · exact fixedFields_setColor p1 _
  · rfl

lemma fixedFields_stepParticle (env : Env) (ty : AnimationType)
    (center : ℚ × ℚ) (prog dt : ℚ) (p : Particle) :
    fixedFields (stepParticle env ty center prog dt p) = fixedFields p := by
  unfold stepParticle
  exact (fixedFields_colorBlendStage _ _).trans
    (fixedFields_typeUpdate env ty center prog dt p)

/-! ## Claim theorems -/

/-- C9: for every particle and every `update(dt)` call of any of the four
animation types, the fields `startPosition`, `targetPosition`,
`sourceColor`, `targetColor`, `size` and `fallDelay` (as well as the other
creation-time constants) are unchanged; only current position, colour,
velocity and age may mutate. -/
theorem update_preserves_creation_fields (env : Env) (m : AnimationManager)
    (dt : ℚ) :
    (mupdate env m dt).particles.map fixedFields =
      m.particles.map fixedFields := by
  unfold mupdate
  split
  · dsimp only
    rw [List.map_map]
    exact List.map_congr_left fun p _ => fixedFields_stepParticle _ _ _ _ _ _
  · rfl

/-- C5: a `PIXEL_MORPH` or `WAVE_TRANSFORM` update at `progress = 1`
moves the particle exactly onto its target: the ease-out and smooth-step
factors both equal 1 at 1, and the wave offset vanishes because it is
scaled by `1 - progress`. -/
theorem morph_wave_boundary (env : Env) (p : Particle) (dt : ℚ) :
    easeOutQ 1 = 1 ∧ smoothStepQ 1 = 1 ∧ waveOffset env p.start_x 1 = 0 ∧
    (p.update_pixel_morph 1 dt).current_x = p.target_x ∧
    (p.update_pixel_morph 1 dt).current_y = p.target_y ∧
    (p.update_wave_transform env 1 dt).current_x = p.target_x ∧
    (p.update_wave_transform env 1 dt).current_y = p.target_y := by
  refine ⟨by norm_num [easeOutQ], by norm_num [smoothStepQ],
    by simp [waveOffset], ?_, ?_, ?_, ?_⟩ <;>
    simp [Particle.update_pixel_morph, Particle.update_wave_transform,
      easeOutQ, smoothStepQ, waveOffset] <;>
    ring

/-- C10: a `PARTICLE_SWIRL` update at `progress = 1` also lands the
particle exactly on its target, for every centre point, because the
spiral term carries weight `1 - progress = 0` in the final
interpolation. -/
theorem swirl_boundary (env : Env) (p : Particle) (dt : ℚ) (center : ℚ × ℚ) :
    (p.update_particle_swirl env 1 dt center).current_x = p.target_x ∧
    (p.update_particle_swirl env 1 dt center).current_y = p.target_y := by
  constructor <;> simp [Particle.update_particle_swirl]

/-- C1: with an empty source sample list, `start_animation` does not
degrade gracefully: as soon as the target bitmap contributes at least one
qualifying pixel, `extract_pixels_for_shape` computes
`step = len(all_pixels) // num_pixels` with `num_pixels = 0` and raises
`ZeroDivisionError` (modelled as `none`); only a target with no
qualifying pixels avoids the division and yields zero particles. -/
theorem start_empty_source_raises (env : Env) (tgt : List Sample)
    (h : tgt ≠ []) :
    start_animation_particles env [] tgt = none ∧
    start_animation_particles env [] [] = some [] := by
  constructor
  · unfold start_animation_particles extract_pixels_for_shape
    have hlen : 0 < tgt.length := List.length_pos.mpr h
    simp [hlen]
  · rfl

/-- Witness for C1 at a one-pixel target. -/
theorem start_empty_source_raises_witness :
    ([((0, 0), (0, 0, 0))] : List Sample) ≠ [] ∧
    start_animation_particles envZero [] [((0, 0), (0, 0, 0))] = none := by
  refine ⟨by simp, ?_⟩
  exact (start_empty_source_raises envZero [((0, 0), (0, 0, 0))] (by simp)).1

lemma mupdate_not_animating (env : Env) (m : AnimationManager) (dt : ℚ)
    (h : m.is_animating = false) : mupdate env m dt = m := by
  simp [mupdate, h]

lemma mupdate_duration (env : Env) (m : AnimationManager) (dt : ℚ) :
    (mupdate env m dt).duration = m.duration := by
  unfold mupdate; split <;> rfl

lemma ManagerInv_mupdate (env : Env) (m : AnimationManager) (dt : ℚ)
    (hdur : 0 < m.duration) (hdt : 0 < dt) (hinv : ManagerInv m) :
    ManagerInv (mupdate env m dt) := by
  obtain ⟨h0, h1, hiff⟩ := hinv
  by_cases hanim : m.is_animating
  · have hstep : 0 < dt / m.duration := div_pos hdt hdur
    unfold mupdate
    rw [if_pos hanim]
    by_cases hclamp : 1 ≤ m.progress + dt / m.duration
    · exact ⟨by simp [hclamp], by simp [hclamp], by simp [hclamp]⟩
    · refine ⟨?_, ?_, ?_⟩
      · simp only [ManagerInv, hclamp, if_neg]
        positivity
      · simpa [hclamp] using le_of_lt (lt_of_not_le hclamp)
      · simp only [hclamp, if_neg, ite_false]
        constructor
        · intro hfalse; exact absurd hfalse (by simp)
        · intro heq; exact absurd heq (ne_of_lt (lt_of_not_le hclamp))
  · rw [mupdate_not_animating env m dt (by simpa using hanim)]
    exact ⟨h0, h1, hiff⟩

lemma mupdate_progress_mono (env : Env) (m : AnimationManager) (dt : ℚ)
    (hdur : 0 < m.duration) (hdt : 0 < dt) (hinv : ManagerInv m) :
    m.progress ≤ (mupdate env m dt).progress := by
  obtain ⟨h0, h1, hiff⟩ := hinv
  by_cases hanim : m.is_animating
  · have hstep : 0 < dt / m.duration := div_pos hdt hdur
    unfold mupdate
    rw [if_pos hanim]
    by_cases hclamp : 1 ≤ m.progress + dt / m.duration
    · simpa [hclamp] using h1
    · simp only [hclamp, if_neg, ite_false]
      linarith
  · rw [mupdate_not_animating env m dt (by simpa using hanim)]

lemma updates_inv (env : Env) (dts : List ℚ) :
    ∀ (m : AnimationManager), 0 < m.duration → ManagerInv m →
      (∀ dt ∈ dts, 0 < dt) →
      ManagerInv (updates env m dts) ∧
        (updates env m dts).duration = m.duration := by
  induction dts with
  | nil => intro m _ hinv _; exact ⟨hinv, rfl⟩
  | cons d rest ih =>
      intro m hdur hinv hdts
      have hd : 0 < d := hdts d (List.mem_cons_self d rest)
      have hrest : ∀ dt ∈ rest, 0 < dt :=
        fun dt hdt => hdts dt (List.mem_cons_of_mem d hdt)
      have h1 := ManagerInv_mupdate env m d hdur hd hinv
      have h2 : (mupdate env m d).duration = m.duration := mupdate_duration env m d
      have := ih (mupdate env m d) (h2 ▸ hdur) h1 hrest
      exact ⟨this.1, this.2.trans h2⟩

/-- C2: after a `start` (progress 0, animating, positive duration), for
every sequence of `update(dt)` calls with `dt > 0`, progress is
non-decreasing at every further step, never exceeds 1 and is clamped to
exactly 1; `is_finished` is true exactly when progress has reached 1 (so
it becomes true in the clamping tick and never earlier), and `update` is
a complete no-op once finished. -/
theorem progress_monotone_clamped (env : Env) (m0 : AnimationManager)
    (dts : List ℚ) (hdur : 0 < m0.duration) (hp0 : m0.progress = 0)
    (ha0 : m0.is_animating = true) (hdts : ∀ dt ∈ dts, 0 < dt) :
    (0 ≤ (updates env m0 dts).progress ∧ (updates env m0 dts).progress ≤ 1) ∧
    ((updates env m0 dts).is_finished = true ↔
      (updates env m0 dts).progress = 1) ∧
    (∀ dt, 0 < dt →
      (updates env m0 dts).progress ≤
        (updates env m0 (dts ++ [dt])).progress) ∧
    ((updates env m0 dts).is_finished = true →
      ∀ dt, mupdate env (updates env m0 dts) dt = updates env m0 dts) := by
  have hinv0 : ManagerInv m0 := by
    refine ⟨le_of_eq hp0.symm, by rw [hp0]; norm_num, ?_⟩
    rw [ha0, hp0]
    constructor
    · intro hfalse; exact absurd hfalse (by simp)
    · intro heq; exact absurd heq (by norm_num)
  obtain ⟨hinv, hdureq⟩ := updates_inv env dts m0 hdur hinv0 hdts
  have hfin : (updates env m0 dts).is_finished = true ↔
      (updates env m0 dts).is_animating = false := by
    unfold AnimationManager.is_finished
    simp
  refine ⟨⟨hinv.1, hinv.2.1⟩, hfin.trans hinv.2.2, ?_, ?_⟩
  · intro dt hdt
    have : updates env m0 (dts ++ [dt]) =
        mupdate env (updates env m0 dts) dt := by
      unfold updates
      rw [List.foldl_append]
      rfl
    rw [this]
    exact mupdate_progress_mono env _ dt (hdureq ▸ hdur) hdt hinv
  · intro hfin2 dt
    exact mupdate_not_animating env _ dt (hfin.mp hfin2)

/-- Witness for C2: duration 2, three unit time steps. -/
theorem progress_monotone_clamped_witness :
    (0 < mgr0.duration ∧ mgr0.progress = 0 ∧ mgr0.is_animating = true ∧
      (∀ dt ∈ ([1, 1, 1] : List ℚ), 0 < dt)) ∧
    ((0 ≤ (updates envZero mgr0 [1, 1, 1]).progress ∧
        (updates envZero mgr0 [1, 1, 1]).progress ≤ 1) ∧
      ((updates envZero mgr0 [1, 1, 1]).is_finished = true ↔
        (updates envZero mgr0 [1, 1, 1]).progress = 1) ∧
      (∀ dt, 0 < dt →
        (updates envZero mgr0 [1, 1, 1]).progress ≤
          (updates envZero mgr0 ([1, 1, 1] ++ [dt])).progress) ∧
      ((updates envZero mgr0 [1, 1, 1]).is_finished = true →
        ∀ dt, mupdate envZero (updates envZero mgr0 [1, 1, 1]) dt =
          updates envZero mgr0 [1, 1, 1])) := by
  have hdts : ∀ dt ∈ ([1, 1, 1] : List ℚ), 0 < dt := by
    intro dt hdt
    fin_cases hdt <;> norm_num
  refine ⟨⟨by norm_num [mgr0], rfl, rfl, hdts⟩, ?_⟩
  exact progress_monotone_clamped envZero mgr0 [1, 1, 1]
    (by norm_num [mgr0]) rfl rfl hdts

lemma extendSource_of_ge {α : Type} (fuel : ℕ) (l : List α) (tlen : ℕ)
    (h : tlen ≤ l.length) : extendSource fuel l tlen = l := by
  cases fuel <;> simp [extendSource, Nat.not_lt.mpr h]

/-- Appending a prefix of a cyclic-repetition list extends the cyclic
pattern, provided the current length is a multiple of the period. -/
lemma cyc_extend {α : Type} (src l : List α) (k : ℕ)
    (hdvd : src.length ∣ l.length)
    (hq : ∀ i, i < l.length → l[i]? = src[i % src.length]?) :
    ∀ i, i < l.length + min k l.length →
      (l ++ l.take k)[i]? = src[i % src.length]? := by
  intro i hi
  rcases Nat.lt_or_ge i l.length with hlt | hge
  · rw [List.getElem?_append, if_pos hlt]
    exact hq i hlt
  · obtain ⟨m, hm⟩ := hdvd
    have hsub : i - l.length < min k l.length := by omega
    rw [List.getElem?_append, if_neg (by omega)]
    rw [List.getElem?_take_of_lt (by omega : i - l.length < k)]
    rw [hq (i - l.length) (by omega)]
    congr 1
    conv_rhs => rw [show i = (i - l.length) + src.length * m by omega]
    rw [Nat.add_mul_mod_self_left]

lemma extendSource_spec {α : Type} (src : List α) (tlen : ℕ) :
    ∀ (fuel : ℕ) (l : List α), l ≠ [] → src.length ∣ l.length →
      l.length ≤ tlen → tlen - l.length ≤ fuel →
      (∀ i, i < l.length → l[i]? = src[i % src.length]?) →
      (extendSource fuel l tlen).length = tlen ∧
        ∀ i, i < tlen →
          (extendSource fuel l tlen)[i]? = src[i % src.length]? := by
  intro fuel
  induction fuel with
  | zero =>
      intro l hne hdvd hle hfuel hq
      have : l.length = tlen := by omega
      simp only [extendSource]
      exact ⟨this, fun i hi => hq i (by omega)⟩
  | succ fuel ih =>
      intro l hne hdvd hle hfuel hq
      by_cases hlt : l.length < tlen
      · have hpos : 0 < l.length := List.length_pos.mpr hne
        simp only [extendSource, if_pos hlt]
        set k := tlen - l.length with hk
        by_cases hcase : k < l.length
        · have hlen2 : (l ++ l.take k).length = tlen := by
            rw [List.length_append, List.length_take]
            omega
          rw [extendSource_of_ge fuel _ tlen (le_of_eq hlen2.symm)]
          refine ⟨hlen2, fun i hi => ?_⟩
          exact cyc_extend src l k hdvd hq i (by omega)
        · have htake : l.take k = l := List.take_of_length_le (by omega)
          have hlen2 : (l ++ l.take k).length = 2 * l.length := by
            rw [htake, List.length_append]; omega
          refine ih (l ++ l.take k) (by simp [hne]) ?_ (by omega) (by omega) ?_
          · rw [hlen2]
            exact Dvd.dvd.mul_left hdvd 2
          · intro i hi
            exact cyc_extend src l k hdvd hq i (by rw [hlen2] at hi; omega)
      · simp only [extendSource, if_neg hlt]
        have : l.length = tlen := by omega
        exact ⟨this, fun i hi => hq i (by omega)⟩

lemma equalizeSource_spec {α : Type} (src : List α) (tlen : ℕ)
    (hsrc : src ≠ []) :
    (equalizeSource src tlen).length = tlen ∧
      ∀ i, i < tlen →
        (equalizeSource src tlen)[i]? = src[i % src.length]? := by
  have hpos : 0 < src.length := List.length_pos.mpr hsrc
  unfold equalizeSource
  by_cases hgt : src.length > tlen
  · rw [if_pos hgt]
    refine ⟨by rw [List.length_take]; omega, fun i hi => ?_⟩
    rw [List.getElem?_take_of_lt hi, Nat.mod_eq_of_lt (by omega)]
  · rw [if_neg hgt]
    exact extendSource_spec src tlen tlen src hsrc (dvd_refl _) (by omega)
      (by omega) (fun i hi => by rw [Nat.mod_eq_of_lt hi])

/-- C4: for a non-empty source list and target length `tlen`, length
equalization yields a list of length exactly `tlen`; a longer source is
truncated to its first `tlen` entries; otherwise the source is cyclically
repeated in order (entry `i` of the result is source entry `i mod s`);
and for `s = 5, t = 12` the result is the index sequence
`[0,1,2,3,4,0,1,2,3,4,0,1]`. -/
theorem equalization_cyclic {α : Type} (src : List α) (tlen : ℕ)
    (hsrc : src ≠ []) (_htlen : 0 < tlen) :
    (equalizeSource src tlen).length = tlen ∧
    (src.length > tlen → equalizeSource src tlen = src.take tlen) ∧
    (∀ i, i < tlen → (equalizeSource src tlen)[i]? = src[i % src.length]?) ∧
    equalizeSource ([0, 1, 2, 3, 4] : List ℕ) 12 =
      [0, 1, 2, 3, 4, 0, 1, 2, 3, 4, 0, 1] := by
  obtain ⟨hlen, hcyc⟩ := equalizeSource_spec src tlen hsrc
  refine ⟨hlen, fun hgt => ?_, hcyc, by decide⟩
  unfold equalizeSource
  rw [if_pos hgt]

/-- Witness for C4 at source length 5 and target length 12. -/
theorem equalization_cyclic_witness :
    (([0, 1, 2, 3, 4] : List ℕ) ≠ [] ∧ 0 < 12) ∧
    ((equalizeSource ([0, 1, 2, 3, 4] : List ℕ) 12).length = 12 ∧
      (([0, 1, 2, 3, 4] : List ℕ).length > 12 →
        equalizeSource ([0, 1, 2, 3, 4] : List ℕ) 12 =
          ([0, 1, 2, 3, 4] : List ℕ).take 12) ∧
      (∀ i, i < 12 →
        (equalizeSource ([0, 1, 2, 3, 4] : List ℕ) 12)[i]? =
          ([0, 1, 2, 3, 4] : List ℕ)[i % ([0, 1, 2, 3, 4] : List ℕ).length]?) ∧
      equalizeSource ([0, 1, 2, 3, 4] : List ℕ) 12 =
        [0, 1, 2, 3, 4, 0, 1, 2, 3, 4, 0, 1]) := by
  refine ⟨⟨by simp, by norm_num⟩, ?_⟩
  exact equalization_cyclic ([0, 1, 2, 3, 4] : List ℕ) 12 (by simp) (by norm_num)

lemma findBestAux_some_spec (spos : Pos) (used : List ℕ) :
    ∀ (l : List Sample) (i : ℕ) (acc : Option (ℕ × Sample × ℤ))
      (r : ℕ × Sample × ℤ),
      findBestAux spos used l i acc = some r →
      acc = some r ∨ (r.1 ∉ used ∧ i ≤ r.1 ∧ r.1 < i + l.length) := by
  intro l
  induction l with
  | nil => intro i acc r h; exact Or.inl h
  | cons t rest ih =>
      intro i acc r h
      simp only [findBestAux] at h
      by_cases hmem : i ∈ used
      · rw [if_pos hmem] at h
        rcases ih (i + 1) acc r h with hacc | ⟨h1, h2, h3⟩
        · exact Or.inl hacc
        · exact Or.inr ⟨h1, by omega, by simpa [Nat.add_comm] using by omega⟩
      · rw [if_neg hmem] at h
        rcases hacc : acc with _ | ⟨⟨j, u, bd⟩⟩
        · subst hacc
          dsimp only at h
          rcases ih (i + 1) _ r h with hsome | ⟨h1, h2, h3⟩
          · obtain rfl : (i, t, dist2 spos t.1) = r := Option.some_injective _ hsome
            exact Or.inr ⟨hmem, le_refl i, by simp⟩
          · exact Or.inr ⟨h1, by omega, by simp only [List.length_cons]; omega⟩
        · subst hacc
          dsimp only at h
          by_cases hd : dist2 spos t.1 < bd
          · rw [if_pos hd] at h
            rcases ih (i + 1) _ r h with hsome | ⟨h1, h2, h3⟩
            · obtain rfl : (i, t, dist2 spos t.1) = r := Option.some_injective _ hsome
              exact Or.inr ⟨hmem, le_refl i, by simp⟩
            · exact Or.inr ⟨h1, by omega, by simp only [List.length_cons]; omega⟩
          · rw [if_neg hd] at h
            rcases ih (i + 1) _ r h with hsome | ⟨h1, h2, h3⟩
            · exact Or.inl hsome
            · exact Or.inr ⟨h1, by omega, by simp only [List.length_cons]; omega⟩

lemma findBestAux_isSome (spos : Pos) (used : List ℕ) :
    ∀ (l : List Sample) (i : ℕ) (acc : Option (ℕ × Sample × ℤ)),
      (acc.isSome = true ∨ ∃ j, j ∉ used ∧ i ≤ j ∧ j < i + l.length) →
      (findBestAux spos used l i acc).isSome = true := by
  intro l
  induction l with
  | nil =>
      intro i acc h
      rcases h with h | ⟨j, _, h2, h3⟩
      · simpa [findBestAux] using h
      · simp at h3; omega
  | cons t rest ih =>
      intro i acc h
      simp only [findBestAux]
      by_cases hmem : i ∈ used
      · rw [if_pos hmem]
        refine ih (i + 1) acc ?_
        rcases h with h | ⟨j, h1, h2, h3⟩
        · exact Or.inl h
        · refine Or.inr ⟨j, h1, ?_, ?_⟩
          · rcases Nat.eq_or_lt_of_le h2 with heq | hlt
            · exact absurd (heq ▸ h1) (by simp [hmem])
            · omega
          · simp only [List.length_cons] at h3; omega
      · rw [if_neg hmem]
        rcases hacc : acc with _ | ⟨⟨j, u, bd⟩⟩
        · exact ih (i + 1) _ (Or.inl rfl)
        · dsimp only
          by_cases hd : dist2 spos t.1 < bd
          · rw [if_pos hd]
            exact ih (i + 1) _ (Or.inl rfl)
          · rw [if_neg hd]
            exact ih (i + 1) _ (Or.inl rfl)

lemma findBest_mem (spos : Pos) (targets : List Sample) (used : List ℕ)
    (r : ℕ × Sample) (h : findBest spos targets used = some r) :
    r.1 ∉ used ∧ r.1 < targets.length := by
  unfold findBest at h
  rcases haux : findBestAux spos used targets 0 none with _ | r0
  · rw [haux] at h; simp at h
  · rw [haux] at h
    rcases findBestAux_some_spec spos used targets 0 none r0 haux with
      hnone | ⟨h1, _, h3⟩
    · exact absurd hnone (by simp)
    · have hr : r = (r0.1, r0.2.1) := by
        have := h.symm
        simpa using this
      rw [hr]
      exact ⟨h1, by simpa using h3⟩

lemma findBest_isSome (spos : Pos) (targets : List Sample) (used : List ℕ)
    (h : ∃ j, j ∉ used ∧ j < targets.length) :
    (findBest spos targets used).isSome = true := by
  have haux : (findBestAux spos used targets 0 none).isSome = true := by
    refine findBestAux_isSome spos used targets 0 none (Or.inr ?_)
    obtain ⟨j, h1, h2⟩ := h
    exact ⟨j, h1, Nat.zero_le j, by simpa using h2⟩
  unfold findBest
  rcases hx : findBestAux spos used targets 0 none with _ | r0
  · rw [hx] at haux; simp at haux
  · rfl

lemma exists_unused (used : List ℕ) (n : ℕ) (hnd : used.Nodup)
    (hb : ∀ j ∈ used, j < n) (hlen : used.length < n) :
    ∃ j, j ∉ used ∧ j < n := by
  have hsub : used.toFinset ⊆ Finset.range n := by
    intro j hj
    simp only [List.mem_toFinset] at hj
    exact Finset.mem_range.mpr (hb j hj)
  obtain ⟨j, hj1, hj2⟩ := Finset.exists_of_ssubset
    ⟨hsub, fun hsub2 => by
      have hc := Finset.card_le_card hsub2
      rw [Finset.card_range, List.toFinset_card_of_nodup hnd] at hc
      omega⟩
  exact ⟨j, fun hmem => hj2 (List.mem_toFinset.mpr hmem),
    Finset.mem_range.mp hj1⟩

lemma assignLoop_spec (targets : List Sample) :
    ∀ (srcs : List Sample) (used : List ℕ),
      used.Nodup → (∀ j ∈ used, j < targets.length) →
      used.length + srcs.length ≤ targets.length →
      (assignLoop targets srcs used).length = srcs.length ∧
      (assignLoop targets srcs used).map (fun a => a.2.1) = srcs ∧
      ((assignLoop targets srcs used).map (fun a => a.1)).Nodup ∧
      (∀ a ∈ assignLoop targets srcs used,
        a.1 < targets.length ∧ a.1 ∉ used) := by
  intro srcs
  induction srcs with
  | nil =>
      intro used _ _ _
      exact ⟨rfl, rfl, List.nodup_nil, fun a ha => absurd ha (by simp [assignLoop])⟩
  | cons s rest ih =>
      intro used hnd hb hcount
      have hex : ∃ j, j ∉ used ∧ j < targets.length := by
        refine exists_unused used targets.length hnd hb ?_
        simp only [List.length_cons] at hcount
        omega
      have hsome := findBest_isSome s.1 targets used hex
      rcases hfb : findBest s.1 targets used with _ | ⟨i, t⟩
      · rw [hfb] at hsome; simp at hsome
      · obtain ⟨hinotused, hilt⟩ := findBest_mem s.1 targets used (i, t) hfb
        have hused2 : (i :: used).Nodup := List.nodup_cons.mpr ⟨hinotused, hnd⟩
        have hb2 : ∀ j ∈ i :: used, j < targets.length := by
          intro j hj
          rcases List.mem_cons.mp hj with heq | hmem
          · exact heq ▸ hilt
          · exact hb j hmem
        have hcount2 : (i :: used).length + rest.length ≤ targets.length := by
          simp only [List.length_cons] at hcount ⊢
          omega
        obtain ⟨ihlen, ihmap, ihnd, ihall⟩ := ih (i :: used) hused2 hb2 hcount2
        have hloop : assignLoop targets (s :: rest) used =
            (i, s, t) :: assignLoop targets rest (i :: used) := by
          simp only [assignLoop, hfb]
        rw [hloop]
        refine ⟨by simpa using ihlen, by simpa using ihmap, ?_, ?_⟩
        · rw [List.map_cons, List.nodup_cons]
          refine ⟨?_, ihnd⟩
          intro hmem
          obtain ⟨a, ha, haeq⟩ := List.mem_map.mp hmem
          exact (ihall a ha).2 (haeq ▸ List.mem_cons_self i used)
        · intro a ha
          rcases List.mem_cons.mp ha with heq | hmem
          · subst heq
            exact ⟨hilt, hinotused⟩
          · obtain ⟨h1, h2⟩ := ihall a hmem
            exact ⟨h1, fun hmem2 => h2 (List.mem_cons_of_mem i hmem2)⟩

/-- C3: for non-empty source and target sample lists, the greedy
assignment uses each target index at most once (the picked index list has
no duplicates), assigns every equalized source sample exactly one target
(the assignment list projects back onto the equalized source list), and
the number of particles created equals the equalized length, which equals
the target sample count. -/
theorem assignment_validity (env : Env) (src tgt : List Sample)
    (hs : src ≠ []) (ht : tgt ≠ []) :
    ((assignLoop (sortTargets tgt)
        (equalizeSource src (sortTargets tgt).length) []).map
          (fun a => a.1)).Nodup ∧
    (assignLoop (sortTargets tgt)
        (equalizeSource src (sortTargets tgt).length) []).map
          (fun a => a.2.1) = equalizeSource src (sortTargets tgt).length ∧
    (assignLoop (sortTargets tgt)
        (equalizeSource src (sortTargets tgt).length) []).length =
      (equalizeSource src (sortTargets tgt).length).length ∧
    (equalizeSource src (sortTargets tgt).length).length = tgt.length ∧
    (create_particles env src tgt).length = tgt.length := by
  have hsortlen : (sortTargets tgt).length = tgt.length :=
    List.length_insertionSort targetLe tgt
  have heqlen : (equalizeSource src (sortTargets tgt).length).length =
      (sortTargets tgt).length :=
    (equalizeSource_spec src (sortTargets tgt).length hs).1
  obtain ⟨hlen, hmap, hnd, _⟩ := assignLoop_spec (sortTargets tgt)
    (equalizeSource src (sortTargets tgt).length) []
    List.nodup_nil (by simp) (by simp [heqlen])
  refine ⟨hnd, hmap, hlen, heqlen.trans hsortlen, ?_⟩
  have hcp : create_particles env src tgt =
      (assignLoop (sortTargets tgt)
        (equalizeSource src (sortTargets tgt).length) []).enum.map
          (fun ia => particleOfAssignment env ia.1 ia.2) := by
    simp only [create_particles, if_neg (by simp [hs, ht] :
      ¬(src = [] ∨ tgt = []))]
  rw [hcp, List.length_map, List.enum_length, hlen, heqlen, hsortlen]

/-- Witness for C3 at a one-sample source and a two-sample target. -/
theorem assignment_validity_witness :
    (([((0, 0), (0, 0, 0))] : List Sample) ≠ [] ∧
      ([((5, 5), (1, 1, 1)), ((6, 5), (2, 2, 2))] : List Sample) ≠ []) ∧
    (((assignLoop (sortTargets [((5, 5), (1, 1, 1)), ((6, 5), (2, 2, 2))])
        (equalizeSource [((0, 0), (0, 0, 0))]
          (sortTargets [((5, 5), (1, 1, 1)), ((6, 5), (2, 2, 2))]).length)
        []).map (fun a => a.1)).Nodup ∧
      (assignLoop (sortTargets [((5, 5), (1, 1, 1)), ((6, 5), (2, 2, 2))])
        (equalizeSource [((0, 0), (0, 0, 0))]
          (sortTargets [((5, 5), (1, 1, 1)), ((6, 5), (2, 2, 2))]).length)
        []).map (fun a => a.2.1) =
        equalizeSource [((0, 0), (0, 0, 0))]
          (sortTargets [((5, 5), (1, 1, 1)), ((6, 5), (2, 2, 2))]).length ∧
      (assignLoop (sortTargets [((5, 5), (1, 1, 1)), ((6, 5), (2, 2, 2))])
        (equalizeSource [((0, 0), (0, 0, 0))]
          (sortTargets [((5, 5), (1, 1, 1)), ((6, 5), (2, 2, 2))]).length)
        []).length =
        (equalizeSource [((0, 0), (0, 0, 0))]
          (sortTargets [((5, 5), (1, 1, 1)), ((6, 5), (2, 2, 2))]).length).length ∧
      (equalizeSource [((0, 0), (0, 0, 0))]
        (sortTargets [((5, 5), (1, 1, 1)), ((6, 5), (2, 2, 2))]).length).length =
        ([((5, 5), (1, 1, 1)), ((6, 5), (2, 2, 2))] : List Sample).length ∧
      (create_particles envZero [((0, 0), (0, 0, 0))]
        [((5, 5), (1, 1, 1)), ((6, 5), (2, 2, 2))]).length =
        ([((5, 5), (1, 1, 1)), ((6, 5), (2, 2, 2))] : List Sample).length) := by
  refine ⟨⟨by simp, by simp⟩, ?_⟩
  exact assignment_validity envZero [((0, 0), (0, 0, 0))]
    [((5, 5), (1, 1, 1)), ((6, 5), (2, 2, 2))] (by simp) (by simp)

lemma update_sand_fall_color_le (env : Env) (p : Particle) (prog dt : ℚ)
    (hle : prog ≤ p.fall_delay) (hcol : p.color = p.source_color) :
    (p.update_sand_fall env prog dt).color = p.source_color := by
  unfold Particle.update_sand_fall
  by_cases hlt : prog < p.fall_delay
  · rw [if_pos hlt]
    exact hcol
  · rw [if_neg hlt]
    have heq : prog = p.fall_delay := le_antisymm hle (not_lt.mp hlt)
    dsimp only
    rw [heq]
    simp [blendColor_zero]

lemma typeUpdate_fall_delay (env : Env) (ty : AnimationType)
    (center : ℚ × ℚ) (prog dt : ℚ) (p : Particle) :
    (typeUpdate env ty center prog dt p).fall_delay = p.fall_delay := by
  cases ty <;>
    simp only [typeUpdate] <;>
    first
      | (unfold Particle.update_sand_fall; split <;> rfl)
      | rfl

lemma typeUpdate_source_color (env : Env) (ty : AnimationType)
    (center : ℚ × ℚ) (prog dt : ℚ) (p : Particle) :
    (typeUpdate env ty center prog dt p).source_color = p.source_color := by
  cases ty <;>
    simp only [typeUpdate] <;>
    first
      | (unfold Particle.update_sand_fall; split <;> rfl)
      | rfl

lemma typeUpdate_target_color (env : Env) (ty : AnimationType)
    (center : ℚ × ℚ) (prog dt : ℚ) (p : Particle) :
    (typeUpdate env ty center prog dt p).target_color = p.target_color := by
  cases ty <;>
    simp only [typeUpdate] <;>
    first
      | (unfold Particle.update_sand_fall; split <;> rfl)
      | rfl

lemma typeUpdate_color_le (env : Env) (ty : AnimationType) (center : ℚ × ℚ)
    (prog dt : ℚ) (p : Particle) (hle : prog ≤ p.fall_delay)
    (hcol : p.color = p.source_color) :
    (typeUpdate env ty center prog dt p).color = p.source_color := by
  cases ty <;> simp only [typeUpdate]
  · exact update_sand_fall_color_le env p prog dt hle hcol
  · exact hcol
  · exact hcol
  · exact hcol

lemma colorBlendStage_color (prog : ℚ) (p1 : Particle)
    (hfd1 : p1.fall_delay < 2/5)
    (hcol0 : prog ≤ p1.fall_delay → p1.color = p1.source_color) :
    (colorBlendStage prog p1).color =
      blendColor p1.source_color p1.target_color
        (min 1 (max 0 ((prog - p1.fall_delay) / (1 - p1.fall_delay)))) := by
  have hfdpos : (0 : ℚ) < 1 - p1.fall_delay := by linarith
  have hdenom : max (1/1000000 : ℚ) (1 - p1.fall_delay) = 1 - p1.fall_delay :=
    max_eq_right (by linarith)
  unfold colorBlendStage
  rw [hdenom]
  dsimp only
  set x := (prog - p1.fall_delay) / (1 - p1.fall_delay) with hx
  have h0 : 0 ≤ min 1 (max 0 x) := le_min (by norm_num) (le_max_left 0 x)
  by_cases hpos : 0 < min 1 (max 0 x)
  · rw [if_pos hpos]
    have h1 : min 1 (max 0 x) ≤ 1 := min_le_left _ _
    rw [min_eq_right h1, max_eq_right h0]
  · rw [if_neg hpos]
    have hzero : min 1 (max 0 x) = 0 := le_antisymm (not_lt.mp hpos) h0
    have hmax : max 0 x = 0 := by
      rcases le_total 1 (max 0 x) with hc | hc
      · rw [min_eq_left hc] at hzero
        norm_num at hzero
      · rwa [min_eq_right hc] at hzero
    have hxle : x ≤ 0 := by
      rcases le_total x 0 with hc | hc
      · exact hc
      · rw [max_eq_right hc] at hmax
        exact le_of_eq hmax
    have hple : prog ≤ p1.fall_delay := by
      by_contra hgt
      push_neg at hgt
      have : 0 < x := div_pos (by linarith) hfdpos
      linarith
    rw [hzero, blendColor_zero]
    exact hcol0 hple

lemma stepParticle_fixed (env : Env) (ty : AnimationType) (center : ℚ × ℚ)
    (prog dt : ℚ) (p : Particle) :
    (stepParticle env ty center prog dt p).source_color = p.source_color ∧
    (stepParticle env ty center prog dt p).target_color = p.target_color ∧
    (stepParticle env ty center prog dt p).fall_delay = p.fall_delay := by
  have hblend : ∀ q : Particle,
      (colorBlendStage prog q).source_color = q.source_color ∧
      (colorBlendStage prog q).target_color = q.target_color ∧
      (colorBlendStage prog q).fall_delay = q.fall_delay := by
    intro q
    unfold colorBlendStage
    dsimp only
    split <;> exact ⟨rfl, rfl, rfl⟩
  unfold stepParticle
  obtain ⟨a, b, c⟩ := hblend (typeUpdate env ty center prog dt p)
  exact ⟨a.trans (typeUpdate_source_color env ty center prog dt p),
    b.trans (typeUpdate_target_color env ty center prog dt p),
    c.trans (typeUpdate_fall_delay env ty center prog dt p)⟩

lemma stepParticle_color (env : Env) (ty : AnimationType) (center : ℚ × ℚ)
    (prog dt : ℚ) (p : Particle) (hfd1 : p.fall_delay < 2/5)
    (hcol : prog ≤ p.fall_delay → p.color = p.source_color) :
    (stepParticle env ty center prog dt p).color =
      blendColor p.source_color p.target_color
        (min 1 (max 0 ((prog - p.fall_delay) / (1 - p.fall_delay)))) := by
  unfold stepParticle
  have h1 := typeUpdate_fall_delay env ty center prog dt p
  have h2 := typeUpdate_source_color env ty center prog dt p
  have h3 := typeUpdate_target_color env ty center prog dt p
  have hmain := colorBlendStage_color prog (typeUpdate env ty center prog dt p)
    (by rw [h1]; exact hfd1)
    (fun hle => by
      rw [h2]
      exact typeUpdate_color_le env ty center prog dt p (h1 ▸ hle) (hcol (h1 ▸ hle)))
  rw [hmain, h1, h2, h3]

/-- C6: after an `update(dt)` call of any of the four animation types
(with each fall delay in `[0, 2/5)` as produced by creation, and colours
untouched while a particle is still before its delay), every particle's
colour equals the linear RGB blend of its source and target colours with
blend factor `clamp((progress - fallDelay) / (1 - fallDelay), 0, 1)`
computed from the post-update progress, overriding whatever colour the
type-specific update set; consequently at progress 1 the colour equals
the target colour exactly. -/
theorem global_color_blend (env : Env) (m : AnimationManager) (dt : ℚ)
    (hanim : m.is_animating = true) (hdt : 0 < dt) (hdur : 0 < m.duration)
    (hfd : ∀ p ∈ m.particles, 0 ≤ p.fall_delay ∧ p.fall_delay < 2/5)
    (hcol : ∀ p ∈ m.particles,
      m.progress ≤ p.fall_delay → p.color = p.source_color) :
    ∀ q ∈ (mupdate env m dt).particles,
      q.color = blendColor q.source_color q.target_color
        (min 1 (max 0 (((mupdate env m dt).progress - q.fall_delay) /
          (1 - q.fall_delay)))) ∧
      ((mupdate env m dt).progress = 1 → q.color = q.target_color) := by
  intro q hq
  have hstep : 0 < dt / m.duration := div_pos hdt hdur
  set prog0 := m.progress + dt / m.duration with hprog0
  have hprogeq : (mupdate env m dt).progress =
      (if 1 ≤ prog0 then 1 else prog0) := by
    simp [mupdate, hanim]
  have hparteq : (mupdate env m dt).particles =
      m.particles.map (stepParticle env m.animation_type m.center_point
        (if 1 ≤ prog0 then 1 else prog0) dt) := by
    simp [mupdate, hanim]
  set prog : ℚ := if 1 ≤ prog0 then 1 else prog0 with hprog
  rw [hparteq] at hq
  obtain ⟨p, hp, rfl⟩ := List.mem_map.mp hq
  obtain ⟨hfd0, hfd1⟩ := hfd p hp
  obtain ⟨hsrc, htgt, hfdq⟩ :=
    stepParticle_fixed env m.animation_type m.center_point prog dt p
  have hcolstep : prog ≤ p.fall_delay → p.color = p.source_color := by
    intro hle
    apply hcol p hp
    by_cases hif : (1 : ℚ) ≤ prog0
    · rw [hprog, if_pos hif] at hle
      linarith
    · rw [hprog, if_neg hif] at hle
      rw [hprog0] at hle
      linarith
  have hcolq := stepParticle_color env m.animation_type m.center_point
    prog dt p hfd1 hcolstep
  constructor
  · rw [hcolq, hsrc, htgt, hfdq, hprogeq]
  · intro h1
    rw [hprogeq] at h1
    rw [hcolq, htgt, h1]
    have hne : (1 : ℚ) - p.fall_delay ≠ 0 := by linarith
    rw [div_self hne]
    norm_num [blendColor_one]

/-- Witness for C6: one `PIXEL_MORPH` update of duration 2 with `dt = 1`
on a single particle with fall delay 0. -/
theorem global_color_blend_witness :
    (mgr0.is_animating = true ∧ (0 : ℚ) < 1 ∧ 0 < mgr0.duration ∧
      (∀ p ∈ mgr0.particles, 0 ≤ p.fall_delay ∧ p.fall_delay < 2/5) ∧
      (∀ p ∈ mgr0.particles,
        mgr0.progress ≤ p.fall_delay → p.color = p.source_color)) ∧
    (∀ q ∈ (mupdate envZero mgr0 1).particles,
      q.color = blendColor q.source_color q.target_color
        (min 1 (max 0 (((mupdate envZero mgr0 1).progress - q.fall_delay) /
          (1 - q.fall_delay)))) ∧
      ((mupdate envZero mgr0 1).progress = 1 → q.color = q.target_color)) := by
  have hfd : ∀ p ∈ mgr0.particles, 0 ≤ p.fall_delay ∧ p.fall_delay < 2/5 := by
    intro p hp
    simp only [mgr0, List.mem_singleton] at hp
    subst hp
    norm_num [pBase]
  have hcol : ∀ p ∈ mgr0.particles,
      mgr0.progress ≤ p.fall_delay → p.color = p.source_color := by
    intro p hp _
    simp only [mgr0, List.mem_singleton] at hp
    subst hp
    rfl
  refine ⟨⟨rfl, by norm_num, by norm_num [mgr0], hfd, hcol⟩, ?_⟩
  exact global_color_blend envZero mgr0 1 rfl (by norm_num)
    (by norm_num [mgr0]) hfd hcol

/-- C8 counterexample: the claim says particles draw at
`floor(currentPosition)` and are skipped when the floored position is out
of bounds.  The code truncates toward zero instead: for
`current_x = -1/2` the floor position `(-1, 0)` is outside every frame,
yet `Particle.draw` truncates to `(0, 0)`, which passes the bounds check,
and draws the particle.  (The drawn command does not depend on the
abstracted square root, so instantiating it with `envZero` is harmless.)
The code also applies `int(...)` to the clamped alpha, which the claim
formula omits; at distance 1 the code alpha is `int(254.2) = 254`, not
`254.2`. -/
theorem draw_floor_claim_false :
    (⌊pNeg.current_x⌋ < 0 ∧
      Particle.drawCmd envZero pNeg 100 100 =
        some (DrawCmd.setPixel (0, 0) pNeg.color)) ∧
    ((pyInt (max 40 (min 255 (255 - 1 * (8/10)))) : ℚ)) ≠
      max 40 (min 255 ((255 : ℚ) - 1 * (8/10))) := by
  have hpos : pNeg.intPos = (0, 0) := by
    have hx : pyInt (pNeg.current_x) = 0 := by
      norm_num [pNeg, pBase, pyInt]
    have hy : pyInt (pNeg.current_y) = 0 := by
      norm_num [pNeg, pBase, pyInt]
    simp [Particle.intPos, hx, hy]
  refine ⟨⟨?_, ?_⟩, ?_⟩
  · norm_num [pNeg, pBase]
  · have hin : inFrame pNeg.intPos 100 100 := by
      rw [hpos]
      norm_num [inFrame]
    have hsize : pNeg.size ≤ 2 := by norm_num [pNeg, pBase]
    rw [show Particle.drawCmd envZero pNeg 100 100 =
        some (DrawCmd.setPixel pNeg.intPos pNeg.color) from by
      simp [Particle.drawCmd, hin, hsize], hpos]
  · have h : pyInt (max 40 (min 255 (255 - 1 * (8/10)))) = 254 := by
      norm_num [pyInt]
    rw [h]
    norm_num

/-- C8 amended: each particle draws at the truncation-toward-zero of its
current position (Python `int`, not floor); if that truncated position is
out of the frame bounds the particle is silently skipped; when drawn with
`size <= 2` it is a single opaque pixel in the current colour with the
alpha ignored; when drawn with `size > 2` it is a circle with alpha
`int(clamp(255 - dist*0.8, 40, 255))`, which always lies in
`[40, 255]`. -/
theorem particle_draw_characterization (env : Env) (p : Particle)
    (w h : ℤ) :
    (¬ inFrame p.intPos w h → p.drawCmd env w h = none) ∧
    (inFrame p.intPos w h → p.size ≤ 2 →
      p.drawCmd env w h = some (DrawCmd.setPixel p.intPos p.color)) ∧
    (inFrame p.intPos w h → 2 < p.size →
      p.drawCmd env w h =
        some (DrawCmd.circle p.intPos p.color (drawAlpha env p) p.size)) ∧
    (40 ≤ drawAlpha env p ∧ drawAlpha env p ≤ 255) := by
  refine ⟨?_, ?_, ?_, ?_⟩
  · intro hout
    simp [Particle.drawCmd, hout]
  · intro hin hsize
    simp [Particle.drawCmd, hin, hsize]
  · intro hin hsize
    simp [Particle.drawCmd, hin, Nat.not_le.mpr hsize]
  · have hval : (40 : ℚ) ≤ max 40 (min 255 (255 - env.sqrt p.dist2ToTarget * (8/10))) ∧
        max 40 (min 255 ((255 : ℚ) - env.sqrt p.dist2ToTarget * (8/10))) ≤ 255 := by
      constructor
      · exact le_max_left _ _
      · exact max_le (by norm_num) (min_le_left _ _)
    unfold drawAlpha
    rw [pyInt_of_nonneg (by linarith [hval.1])]
    constructor
    · have : (40 : ℤ) = ⌊(40 : ℚ)⌋ := by norm_num
      rw [this]
      exact Int.floor_le_floor hval.1
    · have : (255 : ℤ) = ⌊(255 : ℚ)⌋ := by norm_num
      rw [this]
      exact Int.floor_le_floor hval.2

/-- Witness for C8 at an in-frame small particle. -/
theorem particle_draw_characterization_witness :
    inFrame pBase.intPos 100 100 ∧ pBase.size ≤ 2 ∧
    Particle.drawCmd envZero pBase 100 100 =
      some (DrawCmd.setPixel pBase.intPos pBase.color) ∧
    40 ≤ drawAlpha envZero pBase ∧ drawAlpha envZero pBase ≤ 255 := by
  have hin : inFrame pBase.intPos 100 100 := by
    norm_num [inFrame, Particle.intPos, pBase, pyInt]
  have hsize : pBase.size ≤ 2 := by norm_num [pBase]
  obtain ⟨-, h2, -, h4⟩ := particle_draw_characterization envZero pBase 100 100
  exact ⟨hin, hsize, h2 hin hsize, h4⟩

/-- C7 counterexample: the claim says the reveal radius is
`round(2 + 3*revealProgress)` and the reveal alpha is
`round(255*revealProgress)`.  The code truncates with Python `int`
instead of rounding: at `revealProgress = 1/2` the code radius is
`max(1, int(3.5)) = 3` while `round(3.5) = 4`, and the code alpha is
`min(255, int(127.5)) = 127` while `round(127.5) = 128`. -/
theorem reveal_round_claim_false :
    revealRadius (1/2) ≠ round ((2 : ℚ) + 3 * (1/2)) ∧
    revealAlpha (1/2) ≠ round ((255 : ℚ) * (1/2)) := by
  have h1 : revealRadius (1/2) = 3 := by norm_num [revealRadius, pyInt]
  have h2 : round ((2 : ℚ) + 3 * (1/2)) = 4 := by norm_num [round_eq]
  have h3 : revealAlpha (1/2) = 127 := by norm_num [revealAlpha, pyInt]
  have h4 : round ((255 : ℚ) * (1/2)) = 128 := by norm_num [round_eq]
  rw [h1, h2, h3, h4]
  norm_num

lemma mem_foldl_union {α β : Type} [DecidableEq β] (f : α → Finset β) :
    ∀ (l : List α) (init : Finset β) (x : β),
      x ∈ l.foldl (fun acc p => acc ∪ f p) init ↔
        x ∈ init ∨ ∃ p ∈ l, x ∈ f p := by
  intro l
  induction l with
  | nil => simp
  | cons hd tl ih =>
      intro init x
      simp only [List.foldl_cons]
      rw [ih]
      simp only [Finset.mem_union, List.mem_cons]
      constructor
      · rintro ((hx | hx) | ⟨p, hp, hx⟩)
        · exact Or.inl hx
        · exact Or.inr ⟨hd, Or.inl rfl, hx⟩
        · exact Or.inr ⟨p, Or.inr hp, hx⟩
      · rintro (hx | ⟨p, (rfl | hp), hx⟩)
        · exact Or.inl (Or.inl hx)
        · exact Or.inl (Or.inr hx)
        · exact Or.inr ⟨p, hp, hx⟩

lemma revealRadius_pos (rp : ℚ) : 0 < revealRadius rp :=
  lt_of_lt_of_le one_pos (le_max_left 1 (pyInt (2 + 3 * rp)))

lemma mem_particleReveal (p : Particle) (rp : ℚ) (rect : Pos)
    (imgW imgH : ℤ) (q : Pos) :
    q ∈ particleReveal p rp rect imgW imgH ↔
      qualifies p rp ∧ 0 ≤ q.1 ∧ q.1 < imgW ∧ 0 ≤ q.2 ∧ q.2 < imgH ∧
        (q.1 - (relPos p rect).1) ^ 2 + (q.2 - (relPos p rect).2) ^ 2 ≤
          revealRadius rp ^ 2 := by
  have hr : 0 < revealRadius rp := revealRadius_pos rp
  unfold particleReveal
  by_cases hqual : qualifies p rp
  · rw [if_pos hqual]
    dsimp only
    set c := relPos p rect with hc
    set r := revealRadius rp with hrdef
    constructor
    · intro hmem
      obtain ⟨d, hd, hdq⟩ := Finset.mem_image.mp hmem
      obtain ⟨_, hb1, hb2, hb3, hb4, hcirc⟩ := Finset.mem_filter.mp hd
      have hq1 : c.1 + d.2 = q.1 := by rw [← hdq]
      have hq2 : c.2 + d.1 = q.2 := by rw [← hdq]
      have hdx : q.1 - c.1 = d.2 := by omega
      have hdy : q.2 - c.2 = d.1 := by omega
      refine ⟨hqual, by rw [← hq1]; exact hb1, by rw [← hq1]; exact hb2,
        by rw [← hq2]; exact hb3, by rw [← hq2]; exact hb4, ?_⟩
      rw [hdx, hdy]
      nlinarith [hcirc]
    · rintro ⟨-, hb1, hb2, hb3, hb4, hcirc⟩
      have hx1 : c.1 + (q.1 - c.1) = q.1 := by ring
      have hy1 : c.2 + (q.2 - c.2) = q.2 := by ring
      refine Finset.mem_image.mpr
        ⟨(q.2 - c.2, q.1 - c.1), Finset.mem_filter.mpr ⟨?_, ?_⟩, ?_⟩
      · refine Finset.mem_product.mpr
          ⟨Finset.mem_Icc.mpr ⟨?_, ?_⟩, Finset.mem_Icc.mpr ⟨?_, ?_⟩⟩ <;>
          · dsimp only
            nlinarith [sq_nonneg (q.1 - c.1), sq_nonneg (q.2 - c.2),
              sq_nonneg (q.1 - c.1 + r), sq_nonneg (q.1 - c.1 - r),
              sq_nonneg (q.2 - c.2 + r), sq_nonneg (q.2 - c.2 - r), hcirc, hr]
      · dsimp only
        rw [hx1, hy1]
        exact ⟨hb1, hb2, hb3, hb4, by nlinarith [hcirc]⟩
      · dsimp only
        rw [hx1, hy1]
  · rw [if_neg hqual]
    simp [hqual]

lemma revealRadius_eq_floor {rp : ℚ} (hrp : 0 ≤ rp) :
    revealRadius rp = ⌊(2 : ℚ) + 3 * rp⌋ := by
  unfold revealRadius
  rw [pyInt_of_nonneg (by linarith)]
  refine max_eq_right ?_
  have h1 : (1 : ℤ) = ⌊(1 : ℚ)⌋ := by norm_num
  rw [h1]
  exact Int.floor_le_floor (by linarith)

lemma revealAlpha_eq_floor {rp : ℚ} (hrp0 : 0 ≤ rp) (hrp1 : rp ≤ 1) :
    revealAlpha rp = ⌊(255 : ℚ) * rp⌋ := by
  unfold revealAlpha
  rw [pyInt_of_nonneg (by positivity)]
  refine min_eq_right ?_
  have h1 : (255 : ℤ) = ⌊(255 : ℚ)⌋ := by norm_num
  rw [h1]
  exact Int.floor_le_floor (by linarith)

/-- C7 amended: for `revealProgress` in `[0, 1]`, a pixel is revealed iff
some particle qualifies (its squared distance to target is below the
square of the shrinking threshold `50*(1-revealProgress)`) and the pixel
lies inside the image bounds and inside the circular mask of radius
`revealRadius` around that particle's truncated relative position;
revealed pixels are deduplicated into a set; the radius is exactly
`floor(2 + 3*revealProgress)` (truncation, not `round`) and the
compositing alpha is exactly `floor(255*revealProgress)` (truncation, not
`round`). -/
theorem reveal_characterization (particles : List Particle) (rp : ℚ)
    (rect : Pos) (imgW imgH : ℤ) (q : Pos) (hrp0 : 0 ≤ rp) (hrp1 : rp ≤ 1) :
    (q ∈ revealedPixels particles rp rect imgW imgH ↔
      ∃ p ∈ particles, qualifies p rp ∧ 0 ≤ q.1 ∧ q.1 < imgW ∧ 0 ≤ q.2 ∧
        q.2 < imgH ∧
        (q.1 - (relPos p rect).1) ^ 2 + (q.2 - (relPos p rect).2) ^ 2 ≤
          revealRadius rp ^ 2) ∧
    revealRadius rp = ⌊(2 : ℚ) + 3 * rp⌋ ∧
    revealAlpha rp = ⌊(255 : ℚ) * rp⌋ := by
  refine ⟨?_, revealRadius_eq_floor hrp0, revealAlpha_eq_floor hrp0 hrp1⟩
  unfold revealedPixels
  rw [mem_foldl_union]
  simp only [Finset.not_mem_empty, false_or]
  constructor
  · rintro ⟨p, hp, hq⟩
    exact ⟨p, hp, (mem_particleReveal p rp rect imgW imgH q).mp hq⟩
  · rintro ⟨p, hp, hq⟩
    exact ⟨p, hp, (mem_particleReveal p rp rect imgW imgH q).mpr hq⟩

/-- Witness for C7 at `revealProgress = 1/2`, one particle resting on its
target, a 10 by 10 image at the origin, and the pixel `(3, 4)`. -/
theorem reveal_characterization_witness :
    ((0 : ℚ) ≤ 1/2 ∧ (1/2 : ℚ) ≤ 1) ∧
    ((((3 : ℤ), (4 : ℤ)) ∈ revealedPixels [pBase] (1/2) (0, 0) 10 10 ↔
      ∃ p ∈ [pBase], qualifies p (1/2) ∧ 0 ≤ (3 : ℤ) ∧ (3 : ℤ) < 10 ∧
        0 ≤ (4 : ℤ) ∧ (4 : ℤ) < 10 ∧
        ((3 : ℤ) - (relPos p (0, 0)).1) ^ 2 +
          ((4 : ℤ) - (relPos p (0, 0)).2) ^ 2 ≤ revealRadius (1/2) ^ 2) ∧
      revealRadius (1/2) = ⌊(2 : ℚ) + 3 * (1/2)⌋ ∧
      revealAlpha (1/2) = ⌊(255 : ℚ) * (1/2)⌋) := by
  refine ⟨⟨by norm_num, by norm_num⟩, ?_⟩
  exact reveal_characterization [pBase] (1/2) (0, 0) 10 10 (3, 4)
    (by norm_num) (by norm_num)
